import Mathlib

/-!
Verification of the signed GraphQL request dispatcher (`AppSyncOperations` in
`src/functions/dotnet/module1/AppSyncOperations.cs`) and of the image-resize
adapter (`ImageResizer` in the same file), as a shallow embedding in Lean.

External collaborators of the C# code are modelled as explicit parameters or as
small definitions with documented semantics:

* `FallbackCredentialsFactory.GetCredentials().GetCredentialsAsync()` is an
  `Option ImmutableCredentials` argument (`none` = the ambient chain yields no
  credentials and the awaited call throws);
* `AWS4Signer.Sign` is an arbitrary function from the data the call site hands
  it (the `DefaultRequest`'s service name, region, credentials, method,
  endpoint, content bytes and header map) to the header map the signer leaves
  on the `DefaultRequest`;
* `HttpClient.SendAsync` is a function from the finalized request to
  `Option HttpResponse` (`none` = transport failure);
* `Encoding.ASCII` is the byte codec `asciiEncode`/`asciiDecode` with the
  substitution-character (`?`) replacement fallback of .NET's `ASCIIEncoding`;
* `JsonConvert.SerializeObject` on `new { query, operationName, variables }`
  is the compact JSON renderer `Json.render` below, with Newtonsoft's default
  string escaping;
* `HttpResponseMessage.EnsureSuccessStatusCode` succeeds exactly on status
  codes 200–299 and otherwise throws an `HttpRequestException` that carries the
  response's status code and reason phrase (the response body is not read);
* `SkiaSharp`'s `SKBitmap.Decode` is a decoder parameter and `SKBitmap.Resize`
  produces a bitmap with exactly the requested `SKImageInfo` dimensions.
-/

/-! ## The `Encoding.ASCII` byte codec -/

/-- One UTF-16 code unit through `Encoding.ASCII.GetBytes`: code points above
0x7F are replaced by the substitution character `?` (byte 0x3F), which is what
.NET's `ASCIIEncoding` replacement fallback does. -/
def asciiEncodeChar (c : Char) : Nat :=
  if c.toNat ≤ 127 then c.toNat else 63

/-- The map `Encoding.ASCII.GetBytes` over a whole string. -/
def asciiEncode (s : List Char) : List Nat := s.map asciiEncodeChar

/-- One byte through `Encoding.ASCII.GetString`: bytes above 0x7F decode to `?`. -/
def asciiDecodeByte (b : Nat) : Char :=
  if b ≤ 127 then Char.ofNat b else '?'

/-- The map `Encoding.ASCII.GetString` over a byte sequence. -/
def asciiDecode (bs : List Nat) : List Char := bs.map asciiDecodeByte

theorem toNat_ofNat_of_le (b : Nat) (hb : b ≤ 127) : (Char.ofNat b).toNat = b := by
  have hv : b.isValidChar := Or.inl (by omega)
  simp [Char.ofNat, hv, Char.ofNatAux, Char.toNat]
  rfl

theorem asciiEncodeChar_le (c : Char) : asciiEncodeChar c ≤ 127 := by
  unfold asciiEncodeChar
  split <;> omega

theorem asciiEncodeChar_decodeByte (b : Nat) (hb : b ≤ 127) :
    asciiEncodeChar (asciiDecodeByte b) = b := by
  unfold asciiDecodeByte asciiEncodeChar
  rw [if_pos hb, toNat_ofNat_of_le b hb, if_pos hb]

/-- Re-encoding the ASCII decode of ASCII-encoded text gives back the same
bytes: the `?`-replacement is idempotent at the byte level. -/
theorem asciiEncode_decode_encode (l : List Char) :
    asciiEncode (asciiDecode (asciiEncode l)) = asciiEncode l := by
  simp only [asciiEncode, asciiDecode, List.map_map]
  refine List.map_congr_left (fun c _ => ?_)
  simp only [Function.comp_apply]
  exact asciiEncodeChar_decodeByte _ (asciiEncodeChar_le c)

theorem asciiDecodeByte_encodeChar (c : Char) (hc : c.toNat ≤ 127) :
    asciiDecodeByte (asciiEncodeChar c) = c := by
  unfold asciiEncodeChar asciiDecodeByte
  rw [if_pos hc, if_pos hc]
  exact Char.ofNat_toNat c

/-- Decoding the ASCII encoding of all-ASCII text is lossless. -/
theorem asciiDecode_encode_of_ascii (l : List Char) (h : ∀ c ∈ l, c.toNat ≤ 127) :
    asciiDecode (asciiEncode l) = l := by
  induction l with
  | nil => rfl
  | cons c tl ih =>
    simp only [asciiEncode, asciiDecode, List.map_cons]
    rw [asciiDecodeByte_encodeChar c (h c (List.mem_cons_self c tl))]
    exact congrArg (c :: ·) (ih (fun x hx => h x (List.mem_cons_of_mem c hx)))

/-! ## Case-insensitive header-name comparison

Both `string.Equals(…, StringComparison.InvariantCultureIgnoreCase)` in the
header-merge loop and the `DefaultRequest` header dictionary compare header
names ignoring case; header names are ASCII, so ASCII case folding models it. -/

/-- ASCII lowercase folding of one character. -/
def lowerChar (c : Char) : Char :=
  if 'A' ≤ c ∧ c ≤ 'Z' then Char.ofNat (c.toNat + 32) else c

/-- Case-insensitive string equality (ASCII fold), as a `Bool`. -/
def lowerEq (a b : String) : Bool := a.data.map lowerChar == b.data.map lowerChar

theorem lowerEq_trans {a b c : String} (h₁ : lowerEq a b = true) (h₂ : lowerEq b c = true) :
    lowerEq a c = true := by
  unfold lowerEq at *
  rw [beq_iff_eq] at h₁ h₂ ⊢
  rw [h₁, h₂]

theorem lowerEq_symm {a b : String} (h : lowerEq a b = true) : lowerEq b a = true := by
  unfold lowerEq at *
  rw [beq_iff_eq] at h ⊢
  rw [h]

/-! ## The JSON value model and Newtonsoft's compact serializer

`JsonConvert.SerializeObject(new { query, operationName, variables })`
(AppSyncOperations.cs line 43) writes the anonymous object's properties in
declaration order with no whitespace.  The `variables` dictionary's values are
modelled as JSON trees (`null`, booleans, integers, strings, arrays, nested
objects).  String escaping follows Newtonsoft's `StringEscapeHandling.Default`:
`"` and `\` get short escapes, the control characters `\b \t \n \f \r` get
their short escapes, every other control character below 0x20 and the three
line separators U+0085, U+2028, U+2029 become a lowercase `\uXXXX` escape, and
everything else (including non-ASCII text) is written verbatim. -/

mutual
inductive Json where
  | null
  | bool (b : Bool)
  | num (i : Int)
  | str (s : List Char)
  | arr (items : JsonSeq)
  | obj (members : JsonMembers)
deriving DecidableEq, Repr
inductive JsonSeq where
  | nil
  | cons (head : Json) (tail : JsonSeq)
deriving DecidableEq, Repr
inductive JsonMembers where
  | nil
  | cons (key : List Char) (value : Json) (tail : JsonMembers)
deriving DecidableEq, Repr
end

/-- A lowercase hexadecimal digit character for `k < 16`. -/
def hexChar (k : Nat) : Char :=
  if k < 10 then Char.ofNat (48 + k) else Char.ofNat (87 + k)

/-- Newtonsoft's escape of a single character (see the comment above). -/
def escapeChar (c : Char) : List Char :=
  if c = '"' then ['\\', '"']
  else if c = '\\' then ['\\', '\\']
  else if c = '\x08' then ['\\', 'b']
  else if c = '\x09' then ['\\', 't']
  else if c = '\x0a' then ['\\', 'n']
  else if c = '\x0c' then ['\\', 'f']
  else if c = '\x0d' then ['\\', 'r']
  else if c.toNat < 32 ∨ c = '\x85' ∨ c = ' ' ∨ c = ' ' then
    ['\\', 'u', hexChar (c.toNat / 4096 % 16), hexChar (c.toNat / 256 % 16),
     hexChar (c.toNat / 16 % 16), hexChar (c.toNat % 16)]
  else [c]

/-- The escaped body of a JSON string literal. -/
def escapeString (s : List Char) : List Char := s.flatMap escapeChar

/-- A complete JSON string literal: quote, escaped body, quote. -/
def renderStringLit (s : List Char) : List Char := '"' :: (escapeString s ++ ['"'])

/-- The decimal digit character for `k < 10`. -/
def digitChar10 (k : Nat) : Char := Char.ofNat (48 + k)

/-- Decimal digits of `n`, most significant first; `fuel ≥ n` suffices. -/
def natDigits (fuel n : Nat) : List Char :=
  match fuel with
  | 0 => []
  | f + 1 => if n < 10 then [digitChar10 n] else natDigits f (n / 10) ++ [digitChar10 (n % 10)]

/-- An integer in decimal notation, as Newtonsoft writes boxed integers. -/
def intChars : Int → List Char
  | .ofNat n => natDigits (n + 1) n
  | .negSucc m => '-' :: natDigits (m + 2) (m + 1)

mutual
/-- Compact JSON rendering (no whitespace), as Newtonsoft's writer emits it. -/
def Json.render : Json → List Char
  | .null => "null".data
  | .bool true => "true".data
  | .bool false => "false".data
  | .num i => intChars i
  | .str s => renderStringLit s
  | .arr items => '[' :: (JsonSeq.renderItems items ++ [']'])
  | .obj members => '\x7b' :: (JsonMembers.renderMembers members ++ ['\x7d'])
/-- Comma-separated rendering of array elements. -/
def JsonSeq.renderItems : JsonSeq → List Char
  | .nil => []
  | .cons v .nil => v.render
  | .cons v (.cons w tl) => v.render ++ ',' :: JsonSeq.renderItems (.cons w tl)
/-- Comma-separated rendering of `"key":value` members. -/
def JsonMembers.renderMembers : JsonMembers → List Char
  | .nil => []
  | .cons k v .nil => renderStringLit k ++ ':' :: v.render
  | .cons k v (.cons k2 v2 tl) =>
    renderStringLit k ++ ':' :: v.render ++ ',' :: JsonMembers.renderMembers (.cons k2 v2 tl)
end

/-- The JSON tree for `new { query, operationName, variables }`: the anonymous
type's three properties, in declaration order. -/
def graphQLJson (query operationName : String) (vars : JsonMembers) : Json :=
  .obj (.cons "query".data (.str query.data)
    (.cons "operationName".data (.str operationName.data)
      (.cons "variables".data (.obj vars) .nil)))

/-- The call `JsonConvert.SerializeObject(new { query, operationName, variables })`
(AppSyncOperations.cs line 43). -/
def serializeGraphQLPayload (query operationName : String) (vars : JsonMembers) :
    List Char :=
  (graphQLJson query operationName vars).render

/-! ## Header maps -/

/-- The constant `HeaderKeys.ContentTypeHeader`. -/
def contentTypeHeader : String := "Content-Type"

/-- The constant `HeaderKeys.ContentLengthHeader`. -/
def contentLengthHeader : String := "Content-Length"

/-- The constant `HeaderKeys.XAmzSecurityTokenHeader`. -/
def securityTokenHeader : String := "x-amz-security-token"

/-- The constant `HeaderKeys.HostHeader`. -/
def hostHeader : String := "host"

/-- The content type `StringContent(jsonPayload, Encoding.ASCII,
MediaTypeNames.Application.Json)` stamps on the content. -/
def applicationJsonAscii : String := "application/json; charset=us-ascii"

/-- Dictionary-style assignment `headers[key] = value` with a case-insensitive
key comparison, as on the `DefaultRequest` header dictionary: an existing
binding for the key is replaced in place, otherwise the pair is appended. -/
def setHeader (hs : List (String × String)) (k v : String) : List (String × String) :=
  match hs with
  | [] => [(k, v)]
  | kv :: tl => if lowerEq kv.1 k then (kv.1, v) :: tl else kv :: setHeader tl k v

/-- All values bound to a header name (case-insensitive), in order. -/
def headerValues (hs : List (String × String)) (k : String) : List String :=
  (hs.filter (fun kv => lowerEq kv.1 k)).map Prod.snd

/-- The four headers the merge loop in AppSyncOperations.cs lines 76–86 refuses
to copy back from the signed `DefaultRequest`, compared case-insensitively. -/
def isProtectedHeader (k : String) : Bool :=
  lowerEq k contentTypeHeader || lowerEq k contentLengthHeader ||
    lowerEq k securityTokenHeader || lowerEq k hostHeader

/-- The merge loop of AppSyncOperations.cs lines 76–86: every header of the
signed `DefaultRequest` except the four protected ones is added to the
outgoing `HttpRequestMessage` with `TryAddWithoutValidation` (which appends
without replacing existing values). -/
def mergeSignedHeaders (dest signed : List (String × String)) : List (String × String) :=
  signed.foldl (fun acc kv => if isProtectedHeader kv.1 then acc else acc ++ [kv]) dest

/-! ## The dispatcher data model -/

/-- A parsed absolute URI (`System.Uri`), keeping the parts the code reads. -/
structure Uri where
  absoluteUri : String
  host : String
deriving DecidableEq, Repr

/-- The credential triple `GetCredentialsAsync` resolves from the ambient
default chain. -/
structure ImmutableCredentials where
  accessKey : String
  secretKey : String
  token : String
deriving DecidableEq, Repr

/-- The dispatcher's two readonly fields (`_graphQlEndpoint`, `_awsRegion`),
set in the constructor and never written again. -/
structure AppSyncOperations where
  graphQlEndpoint : Uri
  awsRegion : String
deriving DecidableEq, Repr

/-- The outgoing `HttpRequestMessage`: request headers (to which
`TryAddWithoutValidation` appends) are kept apart from the content headers the
`StringContent` carries, as in .NET. -/
structure HttpRequestMessage where
  method : String
  requestUri : Uri
  headers : List (String × String)
  contentHeaders : List (String × String)
  contentBytes : List Nat
deriving DecidableEq, Repr

/-- An HTTP response as the dispatcher observes it. -/
structure HttpResponse where
  statusCode : Nat
  reasonPhrase : String
  body : String
deriving DecidableEq, Repr

/-- Everything `signer.Sign(awsRequest, new AmazonAppSyncConfig(), null,
immutableCredentials)` (AppSyncOperations.cs lines 69–70) receives: the
`DefaultRequest` was built with service name `"appsync"`, the configured
region as `AlternateEndpoint` (which `AWS4Signer` prefers for the signing
scope), the resolved credentials, method POST, the endpoint, the re-encoded
body bytes as `Content`, and the copied header map. -/
structure SignInvocation where
  serviceName : String
  region : String
  credentials : ImmutableCredentials
  httpMethod : String
  endpoint : Uri
  content : List Nat
  headers : List (String × String)
deriving DecidableEq, Repr

/-- How one `RunGraphql` call can fail. `credentialResolution` is the exception
the awaited credential chain throws; `httpRequestError` is the
`HttpRequestException` that `EnsureSuccessStatusCode` throws, which carries the
status code and the reason phrase but never the response body; `transport` is a
`SendAsync` failure. -/
inductive DispatchError where
  | credentialResolution
  | httpRequestError (statusCode : Nat) (reasonPhrase : String)
  | transport
deriving DecidableEq, Repr

instance exceptDecEq {ε α : Type} [DecidableEq ε] [DecidableEq α] :
    DecidableEq (Except ε α) := fun a b =>
  match a, b with
  | .ok x, .ok y =>
    if h : x = y then .isTrue (by rw [h]) else .isFalse (by intro hc; cases hc; exact h rfl)
  | .error x, .error y =>
    if h : x = y then .isTrue (by rw [h]) else .isFalse (by intro hc; cases hc; exact h rfl)
  | .ok _, .error _ => .isFalse (by intro hc; cases hc)
  | .error _, .ok _ => .isFalse (by intro hc; cases hc)

/-- The observable record of one `RunGraphql` call: the signer invocation (if
reached), every request handed to `HttpClient.SendAsync`, and the outcome. -/
structure DispatchTrace where
  signCall : Option SignInvocation
  sentRequests : List HttpRequestMessage
  result : Except DispatchError Unit
deriving DecidableEq, Repr

/-! ## `RunGraphql`, decomposed exactly as the C# method builds its values -/

/-- The local `var jsonPayload = JsonConvert.SerializeObject(new { query,
operationName, variables })` (line 43). -/
def jsonPayloadOf (query operationName : String) (vars : JsonMembers) : List Char :=
  serializeGraphQLPayload query operationName vars

/-- The bytes the `StringContent(jsonPayload, Encoding.ASCII, …)` stores and
later sends as the HTTP body (line 44). -/
def contentBytesOf (query operationName : String) (vars : JsonMembers) : List Nat :=
  asciiEncode (jsonPayloadOf query operationName vars)

/-- The local `Encoding.ASCII.GetBytes(await requestContent.ReadAsStringAsync())`
(line 54): the stored bytes are decoded back to a string and re-encoded. -/
def rawBytesOf (query operationName : String) (vars : JsonMembers) : List Nat :=
  asciiEncode (asciiDecode (contentBytesOf query operationName vars))

/-- The two headers lines 50–51 add to the draft request before signing:
the session token and the endpoint host. -/
def draftRequestHeadersOf (ops : AppSyncOperations) (ic : ImmutableCredentials) :
    List (String × String) :=
  [(securityTokenHeader, ic.token), (hostHeader, ops.graphQlEndpoint.host)]

/-- The content headers the `StringContent` carries: the media type with the
ASCII charset, and the length of the stored bytes. -/
def contentHeadersOf (query operationName : String) (vars : JsonMembers) :
    List (String × String) :=
  [(contentTypeHeader, applicationJsonAscii),
   (contentLengthHeader, toString (contentBytesOf query operationName vars).length)]

/-- The loop of lines 64–67: request headers and content headers of the draft
`HttpRequestMessage`, copied into the `DefaultRequest` dictionary. -/
def awsRequestHeadersOf (ops : AppSyncOperations) (ic : ImmutableCredentials)
    (query operationName : String) (vars : JsonMembers) : List (String × String) :=
  (draftRequestHeadersOf ops ic ++ contentHeadersOf query operationName vars).foldl
    (fun m kv => setHeader m kv.1 kv.2) []

/-- The `AWS4Signer.Sign` call site of lines 55–70, gathered into one value:
`DefaultRequest(new AmazonAppSyncRequest(), "appsync")` with `Content =
rawBytes`, `HttpMethod = POST`, `Endpoint = _graphQlEndpoint`,
`AlternateEndpoint = _awsRegion`, the copied headers, and the resolved
credentials. -/
def signInvocationOf (ops : AppSyncOperations) (ic : ImmutableCredentials)
    (query operationName : String) (vars : JsonMembers) : SignInvocation :=
  { serviceName := "appsync"
    region := ops.awsRegion
    credentials := ic
    httpMethod := "POST"
    endpoint := ops.graphQlEndpoint
    content := rawBytesOf query operationName vars
    headers := awsRequestHeadersOf ops ic query operationName vars }

/-- The finalized `HttpRequestMessage` after the header-merge loop of lines
76–86: draft headers, plus every non-protected header the signer left on the
`DefaultRequest`, with the original content and content headers untouched. -/
def signedHttpRequestOf (ops : AppSyncOperations) (ic : ImmutableCredentials)
    (sign : SignInvocation → List (String × String))
    (query operationName : String) (vars : JsonMembers) : HttpRequestMessage :=
  { method := "POST"
    requestUri := ops.graphQlEndpoint
    headers := mergeSignedHeaders (draftRequestHeadersOf ops ic)
      (sign (signInvocationOf ops ic query operationName vars))
    contentHeaders := contentHeadersOf query operationName vars
    contentBytes := contentBytesOf query operationName vars }

/-- The call `httpResponseMessage.EnsureSuccessStatusCode()` (line 89): status codes
200–299 succeed, every other status throws an `HttpRequestException` carrying
the status code and reason phrase. `none` from `SendAsync` is a transport
failure. -/
def sendOutcome : Option HttpResponse → Except DispatchError Unit
  | none => .error .transport
  | some resp =>
    if 200 ≤ resp.statusCode ∧ resp.statusCode ≤ 299 then .ok ()
    else .error (.httpRequestError resp.statusCode resp.reasonPhrase)

/-- The method `AppSyncOperations.RunGraphql` (AppSyncOperations.cs lines 35–90).
Credentials are resolved first (lines 37–41); if the chain yields none the
awaited call throws and nothing further happens.  Otherwise the payload is
serialized once, the draft request is built, the signer is invoked, the
non-protected signer headers are merged back, and the single finalized request
is sent. -/
def AppSyncOperations.RunGraphql (ops : AppSyncOperations)
    (getCredentials : Option ImmutableCredentials)
    (sign : SignInvocation → List (String × String))
    (send : HttpRequestMessage → Option HttpResponse)
    (query operationName : String) (vars : JsonMembers) : DispatchTrace :=
  match getCredentials with
  | none => ⟨none, [], .error .credentialResolution⟩
  | some ic =>
    let req := signedHttpRequestOf ops ic sign query operationName vars
    ⟨some (signInvocationOf ops ic query operationName vars), [req],
      sendOutcome (send req)⟩

/-- Two consecutive `RunGraphql` calls on the same dispatcher instance.  Each
call re-runs the ambient credential chain (the source awaits
`FallbackCredentialsFactory` inside the method body, lines 37–41), so each call
gets its own resolution result. -/
def runTwice (ops : AppSyncOperations)
    (getCredentials₁ getCredentials₂ : Option ImmutableCredentials)
    (sign : SignInvocation → List (String × String))
    (send : HttpRequestMessage → Option HttpResponse)
    (q₁ o₁ : String) (v₁ : JsonMembers) (q₂ o₂ : String) (v₂ : JsonMembers) :
    DispatchTrace × DispatchTrace :=
  (ops.RunGraphql getCredentials₁ sign send q₁ o₁ v₁,
   ops.RunGraphql getCredentials₂ sign send q₂ o₂ v₂)

/-! ## The constructor -/

/-- Why constructing `AppSyncOperations` can throw: `new Uri(graphQlEndpoint)`
throws `UriFormatException` on a malformed endpoint, and
`RegionEndpoint.GetBySystemName(null)` throws `ArgumentNullException` when
neither the argument nor the `AWS_REGION` environment variable supplies a
region (`GetBySystemName` does not throw on a non-null name). -/
inductive ConstructionError where
  | uriFormat
  | regionArgumentNull
deriving DecidableEq, Repr

/-- The predicate `string.IsNullOrWhiteSpace`: true for `null`, for the empty string, and
for strings of only white-space characters. -/
def isNullOrWhiteSpace : Option String → Bool
  | none => true
  | some s => s.data.all (fun c => c.isWhitespace)

/-- The `AppSyncOperations` constructor (AppSyncOperations.cs lines 27–33):
parse the endpoint, fall back to the `AWS_REGION` environment variable when
the region argument is null or white space, and fail on a null region. -/
def AppSyncOperations.create (tryCreateUri : String → Option Uri)
    (getEnvironmentVariable : String → Option String)
    (graphQlEndpoint : String) (awsRegion : Option String) :
    Except ConstructionError AppSyncOperations :=
  match tryCreateUri graphQlEndpoint with
  | none => .error .uriFormat
  | some uri =>
    let region :=
      if isNullOrWhiteSpace awsRegion then getEnvironmentVariable "AWS_REGION" else awsRegion
    match region with
    | none => .error .regionArgumentNull
    | some r => .ok ⟨uri, r⟩

/-! ## The image-resize adapter (`ImageResizer` in the same source file) -/

/-- The parts of an `SKBitmap` the resize logic reads and produces. Pixel
content is outside every claim about this adapter, so only dimensions are
modelled. -/
structure SKBitmap where
  width : Int
  height : Int
deriving DecidableEq, Repr

/-- The value `SKImageInfo(width, height)`. -/
structure SKImageInfo where
  width : Int
  height : Int
deriving DecidableEq, Repr

/-- The struct `System.Drawing.Size`. -/
structure Size where
  width : Int
  height : Int
deriving DecidableEq, Repr

/-- The call `sourceBitmap.Resize(new SKImageInfo(width, height), SKFilterQuality.Medium)`:
SkiaSharp scales into a surface with exactly the requested dimensions. -/
def SKBitmap.resizeTo (_source : SKBitmap) (info : SKImageInfo) : SKBitmap :=
  ⟨info.width, info.height⟩

/-- The method `ImageResizer.Resize` (the private static method): decode, clamp each
dimension by `Math.Min` against the source, scale.  `SKBitmap.Decode` is the
external codec, passed as a parameter; `none` models its `null` return for
undecodable input. -/
def ImageResizer.Resize (decode : List Nat → Option SKBitmap)
    (fileContents : List Nat) (maxWidth maxHeight : Int) : Option SKBitmap :=
  match decode fileContents with
  | none => none
  | some sourceBitmap =>
    let height := min maxHeight sourceBitmap.height
    let width := min maxWidth sourceBitmap.width
    some (sourceBitmap.resizeTo ⟨width, height⟩)

/-- The method `ImageResizer.ResizeAsync`: buffers the stream and delegates to `Resize`
with the maximum size's width and height. -/
def ImageResizer.ResizeAsync (decode : List Nat → Option SKBitmap)
    (stream : List Nat) (maxSize : Size) : Option SKBitmap :=
  ImageResizer.Resize decode stream maxSize.width maxSize.height

/-! ## Header-merge lemmas -/

theorem headerValues_append (a b : List (String × String)) (k : String) :
    headerValues (a ++ b) k = headerValues a k ++ headerValues b k := by
  unfold headerValues
  rw [List.filter_append, List.map_append]

theorem lowerEq_congr_left {a b x : String} (h : lowerEq a b = true) :
    lowerEq a x = lowerEq b x := by
  by_cases hbx : lowerEq b x = true
  · rw [hbx]
    exact lowerEq_trans h hbx
  · rw [Bool.not_eq_true] at hbx
    rw [hbx]
    by_cases hax : lowerEq a x = true
    · exact absurd (lowerEq_trans (lowerEq_symm h) hax) (by rw [hbx]; simp)
    · rwa [Bool.not_eq_true] at hax

theorem isProtectedHeader_congr {k k' : String} (h : lowerEq k' k = true) :
    isProtectedHeader k' = isProtectedHeader k := by
  unfold isProtectedHeader
  rw [lowerEq_congr_left h, lowerEq_congr_left h, lowerEq_congr_left h, lowerEq_congr_left h]

/-- The merge loop never touches the values of a protected header name: they
are exactly the draft request's values. -/
theorem headerValues_merge_protected (signed : List (String × String)) :
    ∀ (dest : List (String × String)) (k : String), isProtectedHeader k = true →
      headerValues (mergeSignedHeaders dest signed) k = headerValues dest k := by
  induction signed with
  | nil => intro dest k _; rfl
  | cons kv tl ih =>
    intro dest k hk
    by_cases hp : isProtectedHeader kv.1 = true
    · have hstep : mergeSignedHeaders dest (kv :: tl) = mergeSignedHeaders dest tl := by
        simp only [mergeSignedHeaders, List.foldl_cons, if_pos hp]
      rw [hstep]
      exact ih dest k hk
    · have hpf : isProtectedHeader kv.1 = false := by rwa [Bool.not_eq_true] at hp
      have hstep : mergeSignedHeaders dest (kv :: tl) = mergeSignedHeaders (dest ++ [kv]) tl := by
        simp only [mergeSignedHeaders, List.foldl_cons, hpf, Bool.false_eq_true, if_false]
      have hne : lowerEq kv.1 k = false := by
        by_cases hq : lowerEq kv.1 k = true
        · rw [isProtectedHeader_congr hq, hk] at hpf
          cases hpf
        · rwa [Bool.not_eq_true] at hq
      rw [hstep, ih (dest ++ [kv]) k hk, headerValues_append]
      simp [headerValues, hne]

/-- Whatever is already in the destination header list survives the merge. -/
theorem mem_merge_of_mem_dest (signed : List (String × String)) :
    ∀ (dest : List (String × String)) (kv : String × String),
      kv ∈ dest → kv ∈ mergeSignedHeaders dest signed := by
  induction signed with
  | nil => intro _ _ h; exact h
  | cons kv2 tl ih =>
    intro dest kv h
    by_cases hp : isProtectedHeader kv2.1 = true
    · have hstep : mergeSignedHeaders dest (kv2 :: tl) = mergeSignedHeaders dest tl := by
        simp only [mergeSignedHeaders, List.foldl_cons, if_pos hp]
      rw [hstep]
      exact ih dest kv h
    · have hpf : isProtectedHeader kv2.1 = false := by rwa [Bool.not_eq_true] at hp
      have hstep : mergeSignedHeaders dest (kv2 :: tl) = mergeSignedHeaders (dest ++ [kv2]) tl := by
        simp only [mergeSignedHeaders, List.foldl_cons, hpf, Bool.false_eq_true, if_false]
      rw [hstep]
      exact ih (dest ++ [kv2]) kv (List.mem_append_left _ h)

/-- Every non-protected header of the signed request is copied into the merged
header list. -/
theorem mem_merge_of_mem_signed (signed : List (String × String)) :
    ∀ (dest : List (String × String)) (kv : String × String),
      kv ∈ signed → isProtectedHeader kv.1 = false → kv ∈ mergeSignedHeaders dest signed := by
  induction signed with
  | nil => intro _ _ h _; cases h
  | cons kv2 tl ih =>
    intro dest kv h hnp
    rcases List.mem_cons.mp h with heq | htl
    · subst heq
      have hstep : mergeSignedHeaders dest (kv :: tl) = mergeSignedHeaders (dest ++ [kv]) tl := by
        simp only [mergeSignedHeaders, List.foldl_cons, hnp, Bool.false_eq_true, if_false]
      rw [hstep]
      exact mem_merge_of_mem_dest tl (dest ++ [kv]) kv
        (List.mem_append_right _ (List.mem_singleton.mpr rfl))
    · by_cases hp : isProtectedHeader kv2.1 = true
      · have hstep : mergeSignedHeaders dest (kv2 :: tl) = mergeSignedHeaders dest tl := by
          simp only [mergeSignedHeaders, List.foldl_cons, if_pos hp]
        rw [hstep]
        exact ih dest kv htl hnp
      · have hpf : isProtectedHeader kv2.1 = false := by rwa [Bool.not_eq_true] at hp
        have hstep : mergeSignedHeaders dest (kv2 :: tl) = mergeSignedHeaders (dest ++ [kv2]) tl := by
          simp only [mergeSignedHeaders, List.foldl_cons, hpf, Bool.false_eq_true, if_false]
        rw [hstep]
        exact ih (dest ++ [kv2]) kv htl hnp

/-! ## Fixtures for witnesses and counterexamples -/

/-- Whether an `Except` value is an error. -/
def exceptIsError {ε α : Type} : Except ε α → Bool
  | .error _ => true
  | .ok _ => false

def exampleUri : Uri := ⟨"https://example.com/graphql", "example.com"⟩

def exampleOps : AppSyncOperations := ⟨exampleUri, "us-east-1"⟩

def exampleCredentials : ImmutableCredentials := ⟨"AKIA", "SECRET", "TOKEN"⟩

/-- A signer stub: leaves an authorization header and a date header on the
request, as `AWS4Signer.Sign` does. -/
def exampleSigner : SignInvocation → List (String × String) :=
  fun _ => [("Authorization", "AWS4-HMAC-SHA256 Credential=AKIA"), ("X-Amz-Date", "20251011T000000Z")]

/-- A network stub that always yields the given response. -/
def respondWith (resp : HttpResponse) : HttpRequestMessage → Option HttpResponse :=
  fun _ => some resp

def forbiddenResponse : HttpResponse := ⟨403, "Forbidden", "Forbidden"⟩

def forbiddenResponseOtherBody : HttpResponse := ⟨403, "Forbidden", "a different body"⟩

/-- A resolver for exactly the example endpoint string, standing in for
`new Uri(…)`. -/
def parseExampleUri : String → Option Uri :=
  fun s => if s = "https://example.com/graphql" then some exampleUri else none

/-- An environment in which only `AWS_REGION` is set, to `eu-west-1`. -/
def envWithRegion : String → Option String :=
  fun k => if k = "AWS_REGION" then some "eu-west-1" else none

def exampleDecode : List Nat → Option SKBitmap := fun _ => some ⟨640, 480⟩

/-! ## Claims C1, C2 -/

/-- C1: after the signing step, the header merge copies every signing-derived
header from the signer's request object into the outgoing HTTP request except
the four protected headers (content-type, content-length, security/session
token, host); those four in the final outgoing request always equal the values
established before signing — the endpoint host, the resolved session token,
the `application/json` ASCII content type and the stored byte length — no
matter what header map the signer returns. -/
theorem protected_headers_survive_merge (ops : AppSyncOperations) (ic : ImmutableCredentials)
    (sign : SignInvocation → List (String × String))
    (send : HttpRequestMessage → Option HttpResponse)
    (query operationName : String) (vars : JsonMembers) (r : HttpRequestMessage)
    (hr : r ∈ (ops.RunGraphql (some ic) sign send query operationName vars).sentRequests) :
    headerValues (r.headers ++ r.contentHeaders) hostHeader = [ops.graphQlEndpoint.host] ∧
    headerValues (r.headers ++ r.contentHeaders) securityTokenHeader = [ic.token] ∧
    headerValues (r.headers ++ r.contentHeaders) contentTypeHeader = [applicationJsonAscii] ∧
    headerValues (r.headers ++ r.contentHeaders) contentLengthHeader
      = [toString (contentBytesOf query operationName vars).length] ∧
    ∀ kv ∈ sign (signInvocationOf ops ic query operationName vars),
      isProtectedHeader kv.1 = false → kv ∈ r.headers := by
  have hr' : r = signedHttpRequestOf ops ic sign query operationName vars := by
    simpa [AppSyncOperations.RunGraphql] using hr
  subst hr'
  have hhost : isProtectedHeader hostHeader = true := by decide
  have htok : isProtectedHeader securityTokenHeader = true := by decide
  have hct : isProtectedHeader contentTypeHeader = true := by decide
  have hcl : isProtectedHeader contentLengthHeader = true := by decide
  refine ⟨?_, ?_, ?_, ?_, ?_⟩
  · rw [headerValues_append]
    rw [show (signedHttpRequestOf ops ic sign query operationName vars).headers
        = mergeSignedHeaders (draftRequestHeadersOf ops ic)
            (sign (signInvocationOf ops ic query operationName vars)) from rfl]
    rw [headerValues_merge_protected _ _ _ hhost]
    simp [headerValues, draftRequestHeadersOf, signedHttpRequestOf, contentHeadersOf,
      List.filter_cons, List.filter_nil,
      show lowerEq securityTokenHeader hostHeader = false from by decide,
      show lowerEq hostHeader hostHeader = true from by decide,
      show lowerEq contentTypeHeader hostHeader = false from by decide,
      show lowerEq contentLengthHeader hostHeader = false from by decide]
  · rw [headerValues_append]
    rw [show (signedHttpRequestOf ops ic sign query operationName vars).headers
        = mergeSignedHeaders (draftRequestHeadersOf ops ic)
            (sign (signInvocationOf ops ic query operationName vars)) from rfl]
    rw [headerValues_merge_protected _ _ _ htok]
    simp [headerValues, draftRequestHeadersOf, signedHttpRequestOf, contentHeadersOf,
      List.filter_cons, List.filter_nil,
      show lowerEq securityTokenHeader securityTokenHeader = true from by decide,
      show lowerEq hostHeader securityTokenHeader = false from by decide,
      show lowerEq contentTypeHeader securityTokenHeader = false from by decide,
      show lowerEq contentLengthHeader securityTokenHeader = false from by decide]
  · rw [headerValues_append]
    rw [show (signedHttpRequestOf ops ic sign query operationName vars).headers
        = mergeSignedHeaders (draftRequestHeadersOf ops ic)
            (sign (signInvocationOf ops ic query operationName vars)) from rfl]
    rw [headerValues_merge_protected _ _ _ hct]
    simp [headerValues, draftRequestHeadersOf, signedHttpRequestOf, contentHeadersOf,
      List.filter_cons, List.filter_nil,
      show lowerEq securityTokenHeader contentTypeHeader = false from by decide,
      show lowerEq hostHeader contentTypeHeader = false from by decide,
      show lowerEq contentTypeHeader contentTypeHeader = true from by decide,
      show lowerEq contentLengthHeader contentTypeHeader = false from by decide]
  · rw [headerValues_append]
    rw [show (signedHttpRequestOf ops ic sign query operationName vars).headers
        = mergeSignedHeaders (draftRequestHeadersOf ops ic)
            (sign (signInvocationOf ops ic query operationName vars)) from rfl]
    rw [headerValues_merge_protected _ _ _ hcl]
    simp [headerValues, draftRequestHeadersOf, signedHttpRequestOf, contentHeadersOf,
      List.filter_cons, List.filter_nil,
      show lowerEq securityTokenHeader contentLengthHeader = false from by decide,
      show lowerEq hostHeader contentLengthHeader = false from by decide,
      show lowerEq contentTypeHeader contentLengthHeader = false from by decide,
      show lowerEq contentLengthHeader contentLengthHeader = true from by decide]
  · intro kv hkv hnp
    exact mem_merge_of_mem_signed _ _ kv hkv hnp

/-- C1 witness: at the example configuration, the host header of the sent
request is exactly the endpoint host, and the signer's (non-protected)
authorization header was copied in. -/
theorem protected_headers_survive_merge_witness :
    headerValues
        ((signedHttpRequestOf exampleOps exampleCredentials exampleSigner "ping" "Ping" .nil).headers
          ++ (signedHttpRequestOf exampleOps exampleCredentials exampleSigner "ping" "Ping" .nil).contentHeaders)
        hostHeader = ["example.com"] ∧
    ("Authorization", "AWS4-HMAC-SHA256 Credential=AKIA")
      ∈ (signedHttpRequestOf exampleOps exampleCredentials exampleSigner "ping" "Ping" .nil).headers := by
  have h := protected_headers_survive_merge exampleOps exampleCredentials exampleSigner
    (respondWith forbiddenResponse) "ping" "Ping" .nil
    (signedHttpRequestOf exampleOps exampleCredentials exampleSigner "ping" "Ping" .nil)
    (List.mem_singleton.mpr rfl)
  exact ⟨h.1, h.2.2.2.2 ("Authorization", "AWS4-HMAC-SHA256 Credential=AKIA")
    (by decide) (by decide)⟩

/-- C2: the body bytes of the outgoing HTTP request are byte-identical to the
bytes the signer received as `Content` (the bytes the SigV4 signature covers),
and both come from serializing `{query, operationName, variables}` exactly
once; nothing re-serializes or mutates the body after signing. -/
theorem body_bytes_match_signed_bytes (ops : AppSyncOperations) (ic : ImmutableCredentials)
    (sign : SignInvocation → List (String × String))
    (send : HttpRequestMessage → Option HttpResponse)
    (query operationName : String) (vars : JsonMembers)
    (r : HttpRequestMessage) (inv : SignInvocation)
    (hr : r ∈ (ops.RunGraphql (some ic) sign send query operationName vars).sentRequests)
    (hinv : (ops.RunGraphql (some ic) sign send query operationName vars).signCall = some inv) :
    r.contentBytes = inv.content ∧
    r.contentBytes = asciiEncode (serializeGraphQLPayload query operationName vars) := by
  have hr' : r = signedHttpRequestOf ops ic sign query operationName vars := by
    simpa [AppSyncOperations.RunGraphql] using hr
  have hinv' : inv = signInvocationOf ops ic query operationName vars := by
    have h := hinv
    simp only [AppSyncOperations.RunGraphql, Option.some.injEq] at h
    exact h.symm
  subst hr'
  subst hinv'
  constructor
  · show contentBytesOf query operationName vars = rawBytesOf query operationName vars
    unfold rawBytesOf contentBytesOf
    exact (asciiEncode_decode_encode (jsonPayloadOf query operationName vars)).symm
  · rfl

/-- C2 witness: at the example configuration the sent bytes equal the signed
bytes and both are the single serialization of the payload. -/
theorem body_bytes_match_signed_bytes_witness :
    (signedHttpRequestOf exampleOps exampleCredentials exampleSigner "ping" "Ping" .nil).contentBytes
      = (signInvocationOf exampleOps exampleCredentials "ping" "Ping" .nil).content ∧
    (signedHttpRequestOf exampleOps exampleCredentials exampleSigner "ping" "Ping" .nil).contentBytes
      = asciiEncode (serializeGraphQLPayload "ping" "Ping" .nil) :=
  body_bytes_match_signed_bytes exampleOps exampleCredentials exampleSigner
    (respondWith forbiddenResponse) "ping" "Ping" .nil
    (signedHttpRequestOf exampleOps exampleCredentials exampleSigner "ping" "Ping" .nil)
    (signInvocationOf exampleOps exampleCredentials "ping" "Ping" .nil)
    (List.mem_singleton.mpr rfl) rfl

/-! ## Claims C3, C4 -/

/-- C3 counterexample: the claim says a 403 response with body `Forbidden`
yields an error carrying that body.  The code calls
`EnsureSuccessStatusCode()`, whose exception never reads the body: two
responses with status 403 and different bodies produce bit-for-bit identical
dispatch outcomes, so the error cannot carry the response body. -/
theorem upstream_error_lacks_body_cex :
    exampleOps.RunGraphql (some exampleCredentials) exampleSigner
        (respondWith forbiddenResponse) "ping" "Ping" .nil
      = exampleOps.RunGraphql (some exampleCredentials) exampleSigner
          (respondWith forbiddenResponseOtherBody) "ping" "Ping" .nil ∧
    (exampleOps.RunGraphql (some exampleCredentials) exampleSigner
        (respondWith forbiddenResponse) "ping" "Ping" .nil).result
      = .error (.httpRequestError 403 "Forbidden") ∧
    forbiddenResponse.body ≠ forbiddenResponseOtherBody.body :=
  ⟨rfl, rfl, by decide⟩

/-- C3 (amended): a 2xx status resolves the dispatch without error; any
non-2xx status fails it with an error carrying the response status code (and
reason phrase) — but not the response body — and exactly one request is sent,
with no retry. -/
theorem dispatch_status_outcome (ops : AppSyncOperations) (ic : ImmutableCredentials)
    (sign : SignInvocation → List (String × String))
    (query operationName : String) (vars : JsonMembers) (resp : HttpResponse) :
    (ops.RunGraphql (some ic) sign (respondWith resp) query operationName vars).result
      = (if 200 ≤ resp.statusCode ∧ resp.statusCode ≤ 299 then Except.ok ()
         else Except.error (.httpRequestError resp.statusCode resp.reasonPhrase)) ∧
    (ops.RunGraphql (some ic) sign (respondWith resp) query operationName vars).sentRequests.length
      = 1 :=
  ⟨rfl, rfl⟩

/-- C4: when the ambient credential chain yields no credentials, dispatch
fails with the credential-resolution error, the signer is never invoked, and
zero outbound network requests are made. -/
theorem no_credentials_means_no_network (ops : AppSyncOperations)
    (sign : SignInvocation → List (String × String))
    (send : HttpRequestMessage → Option HttpResponse)
    (query operationName : String) (vars : JsonMembers) :
    ops.RunGraphql none sign send query operationName vars
      = ⟨none, [], .error .credentialResolution⟩ :=
  rfl

/-! ## Claims C6, C7, C8 -/

/-- C6: constructing the dispatcher fails (construction-time, before any
dispatch exists) whenever the endpoint URI is malformed, and whenever the
region is neither usable from the explicit argument nor resolvable from the
environment. -/
theorem construction_fails_fast (tryCreateUri : String → Option Uri)
    (env : String → Option String) (endpoint : String) (region : Option String)
    (h : tryCreateUri endpoint = none ∨
      (isNullOrWhiteSpace region = true ∧ env "AWS_REGION" = none)) :
    exceptIsError (AppSyncOperations.create tryCreateUri env endpoint region) = true := by
  unfold AppSyncOperations.create
  rcases h with h1 | ⟨h2, h3⟩
  · rw [h1]
    rfl
  · cases hu : tryCreateUri endpoint with
    | none => rfl
    | some u => simp only [h2, if_true, h3, exceptIsError]

/-- C6 witness: with the endpoint fine but no region anywhere, construction
fails. -/
theorem construction_fails_fast_witness :
    exceptIsError (AppSyncOperations.create parseExampleUri (fun _ => none)
      "https://example.com/graphql" (some " ")) = true :=
  construction_fails_fast parseExampleUri (fun _ => none) "https://example.com/graphql"
    (some " ") (Or.inr ⟨by decide, rfl⟩)

/-- C7: the signer is always invoked with service name `appsync`, the region
configured at construction as the signing-scope region, and the resolved
credentials (including the secret key material). -/
theorem signing_scope_is_appsync_region_credentials (ops : AppSyncOperations)
    (ic : ImmutableCredentials) (sign : SignInvocation → List (String × String))
    (send : HttpRequestMessage → Option HttpResponse)
    (query operationName : String) (vars : JsonMembers) (inv : SignInvocation)
    (hinv : (ops.RunGraphql (some ic) sign send query operationName vars).signCall = some inv) :
    inv.serviceName = "appsync" ∧ inv.region = ops.awsRegion ∧ inv.credentials = ic := by
  have hinv' : inv = signInvocationOf ops ic query operationName vars := by
    have h := hinv
    simp only [AppSyncOperations.RunGraphql, Option.some.injEq] at h
    exact h.symm
  subst hinv'
  exact ⟨rfl, rfl, rfl⟩

/-- C7 witness: at the example configuration the signer invocation names the
`appsync` service, the `us-east-1` region and the resolved credentials. -/
theorem signing_scope_witness :
    (signInvocationOf exampleOps exampleCredentials "ping" "Ping" .nil).serviceName = "appsync" ∧
    (signInvocationOf exampleOps exampleCredentials "ping" "Ping" .nil).region
      = exampleOps.awsRegion ∧
    (signInvocationOf exampleOps exampleCredentials "ping" "Ping" .nil).credentials
      = exampleCredentials :=
  signing_scope_is_appsync_region_credentials exampleOps exampleCredentials exampleSigner
    (respondWith forbiddenResponse) "ping" "Ping" .nil
    (signInvocationOf exampleOps exampleCredentials "ping" "Ping" .nil) rfl

/-- C8 counterexample: a supplied all-whitespace region argument does not take
precedence — the constructor falls back to the `AWS_REGION` environment value,
so the effective region differs from the supplied argument. -/
theorem region_explicit_whitespace_cex :
    AppSyncOperations.create parseExampleUri envWithRegion "https://example.com/graphql"
        (some " ")
      = .ok ⟨exampleUri, "eu-west-1"⟩ ∧ (" " : String) ≠ "eu-west-1" :=
  ⟨rfl, by decide⟩

/-- C8 (amended): the dispatcher's effective region equals the explicit
constructor argument when that argument is neither null nor white-space-only,
and otherwise equals the `AWS_REGION` environment value; a null or white-space
argument never takes precedence. -/
theorem region_resolution (tryCreateUri : String → Option Uri)
    (env : String → Option String) (endpoint : String) (region : Option String)
    (cfg : AppSyncOperations)
    (hok : AppSyncOperations.create tryCreateUri env endpoint region = .ok cfg) :
    (if isNullOrWhiteSpace region then env "AWS_REGION" else region) = some cfg.awsRegion := by
  unfold AppSyncOperations.create at hok
  cases hu : tryCreateUri endpoint with
  | none => rw [hu] at hok; cases hok
  | some u =>
    rw [hu] at hok
    by_cases hw : isNullOrWhiteSpace region = true
    · rw [hw] at hok ⊢
      simp only [if_true] at hok ⊢
      cases he : env "AWS_REGION" with
      | none => rw [he] at hok; cases hok
      | some r =>
        rw [he] at hok
        simp only [Except.ok.injEq] at hok
        rw [← hok]
    · rw [Bool.not_eq_true] at hw
      rw [hw] at hok ⊢
      simp only [Bool.false_eq_true, if_false] at hok ⊢
      cases he : region with
      | none => rw [he] at hw; cases hw
      | some r =>
        rw [he] at hok
        simp only [Except.ok.injEq] at hok
        rw [← hok]

/-- C8 witness: a non-blank explicit region argument is the effective region
even when the environment variable is also set. -/
theorem region_resolution_witness :
    (if isNullOrWhiteSpace (some "us-west-2") then envWithRegion "AWS_REGION"
     else some "us-west-2") = some "us-west-2" :=
  region_resolution parseExampleUri envWithRegion "https://example.com/graphql"
    (some "us-west-2") ⟨exampleUri, "us-west-2"⟩ rfl

/-! ## Claim C9 -/

/-- C9: dispatch retains no state across calls.  The second of two consecutive
calls on the same dispatcher equals a fresh single call with the same
arguments (so nothing from the first call leaks in, and the configuration the
calls read is the same immutable value — both `AppSyncOperations` fields are
`readonly` in the source); the signing step of the second call uses the
credentials freshly resolved in that call; and a call with resolved
credentials performs exactly one outbound network request. -/
theorem dispatch_retains_no_state (ops : AppSyncOperations)
    (getCredentials₁ : Option ImmutableCredentials) (ic₂ : ImmutableCredentials)
    (sign : SignInvocation → List (String × String))
    (send : HttpRequestMessage → Option HttpResponse)
    (q₁ o₁ : String) (v₁ : JsonMembers) (q₂ o₂ : String) (v₂ : JsonMembers) :
    (runTwice ops getCredentials₁ (some ic₂) sign send q₁ o₁ v₁ q₂ o₂ v₂).2
      = ops.RunGraphql (some ic₂) sign send q₂ o₂ v₂ ∧
    (runTwice ops getCredentials₁ (some ic₂) sign send q₁ o₁ v₁ q₂ o₂ v₂).2.signCall
      = some (signInvocationOf ops ic₂ q₂ o₂ v₂) ∧
    (signInvocationOf ops ic₂ q₂ o₂ v₂).credentials = ic₂ ∧
    (runTwice ops getCredentials₁ (some ic₂) sign send q₁ o₁ v₁ q₂ o₂ v₂).2.sentRequests.length
      = 1 :=
  ⟨rfl, rfl, rfl, rfl⟩

/-! ## Claim C10 -/

/-- C10: the image resizer never upscales: whenever the input decodes, the
output bitmap's width is `min maxWidth sourceWidth` and its height is
`min maxHeight sourceHeight`, so neither dimension exceeds the source's
dimensions or the requested maximums. -/
theorem resizer_never_upscales (decode : List Nat → Option SKBitmap)
    (fileContents : List Nat) (maxSize : Size) (src out : SKBitmap)
    (hdec : decode fileContents = some src)
    (hout : ImageResizer.ResizeAsync decode fileContents maxSize = some out) :
    out.width = min maxSize.width src.width ∧
    out.height = min maxSize.height src.height ∧
    out.width ≤ src.width ∧ out.height ≤ src.height ∧
    out.width ≤ maxSize.width ∧ out.height ≤ maxSize.height := by
  unfold ImageResizer.ResizeAsync ImageResizer.Resize at hout
  rw [hdec] at hout
  simp only [Option.some.injEq, SKBitmap.resizeTo] at hout
  subst hout
  exact ⟨rfl, rfl, min_le_right _ _, min_le_right _ _, min_le_left _ _, min_le_left _ _⟩

/-- C10 witness: a 640 × 480 source with a requested maximum of 200 × 800
yields a 200 × 480 output, clamped on each axis. -/
theorem resizer_never_upscales_witness :
    (SKBitmap.mk 200 480).width = min (200 : Int) 640 ∧
    (SKBitmap.mk 200 480).height = min (800 : Int) 480 ∧
    (SKBitmap.mk 200 480).width ≤ (640 : Int) ∧
    (SKBitmap.mk 200 480).height ≤ (480 : Int) ∧
    (SKBitmap.mk 200 480).width ≤ (200 : Int) ∧
    (SKBitmap.mk 200 480).height ≤ (800 : Int) :=
  resizer_never_upscales exampleDecode [] ⟨200, 800⟩ ⟨640, 480⟩ ⟨200, 480⟩ rfl rfl

/-! ## A standard JSON parser for the compact grammar the serializer emits

The wire body never contains whitespace outside string literals (Newtonsoft's
default writer is compact), so a whitespace-free recursive-descent JSON parser
decides the round-trip property.  The parser recurses structurally on a fuel
counter; `jsonParse` supplies `length + 1`, which the round-trip proof shows is
always enough for parser input produced by the renderer. -/

/-- Decimal digit test. -/
def isDigit10 (c : Char) : Bool := decide (48 ≤ c.toNat ∧ c.toNat ≤ 57)

/-- Hexadecimal digit value, accepting both cases. -/
def hexNat (c : Char) : Option Nat :=
  if 48 ≤ c.toNat ∧ c.toNat ≤ 57 then some (c.toNat - 48)
  else if 97 ≤ c.toNat ∧ c.toNat ≤ 102 then some (c.toNat - 87)
  else if 65 ≤ c.toNat ∧ c.toNat ≤ 70 then some (c.toNat - 55)
  else none

/-- The character a short JSON escape denotes. -/
def unescChar (c : Char) : Option Char :=
  if c = '"' then some '"'
  else if c = '\\' then some '\\'
  else if c = '/' then some '/'
  else if c = 'b' then some '\x08'
  else if c = 'f' then some '\x0c'
  else if c = 'n' then some '\x0a'
  else if c = 'r' then some '\x0d'
  else if c = 't' then some '\x09'
  else none

/-- Parse the body of a string literal after its opening quote, undoing
escapes, up to the closing quote. -/
def parseStringBody : List Char → Option (List Char × List Char)
  | [] => none
  | c :: rest =>
    if c = '"' then some ([], rest)
    else if c = '\\' then
      match rest with
      | [] => none
      | e :: rest2 =>
        if e = 'u' then
          match rest2 with
          | a :: b :: c3 :: d :: rest3 =>
            match hexNat a, hexNat b, hexNat c3, hexNat d with
            | some va, some vb, some vc, some vd =>
              (parseStringBody rest3).map
                (fun p => (Char.ofNat (((va * 16 + vb) * 16 + vc) * 16 + vd) :: p.1, p.2))
            | _, _, _, _ => none
          | _ => none
        else
          match unescChar e with
          | some u => (parseStringBody rest2).map (fun p => (u :: p.1, p.2))
          | none => none
    else (parseStringBody rest).map (fun p => (c :: p.1, p.2))

/-- Split a leading run of decimal digits off the input. -/
def takeDigitRun : List Char → List Char × List Char
  | [] => ([], [])
  | c :: cs =>
    if isDigit10 c then
      let p := takeDigitRun cs
      (c :: p.1, p.2)
    else ([], c :: cs)

/-- The number a run of digit characters denotes. -/
def digitsVal (ds : List Char) : Nat := ds.foldl (fun a c => a * 10 + (c.toNat - 48)) 0

/-- Consume an expected literal character sequence. -/
def dropLit : List Char → List Char → Option (List Char)
  | [], input => some input
  | _ :: _, [] => none
  | l :: ls, c :: cs => if c = l then dropLit ls cs else none

/-- True when the input cannot extend a decimal number: empty, or headed by a
non-digit. -/
def digitFree : List Char → Bool
  | [] => true
  | c :: _ => !isDigit10 c

mutual
/-- Parse one JSON value. -/
def parseValue : Nat → List Char → Option (Json × List Char)
  | 0, _ => none
  | _ + 1, [] => none
  | f + 1, c :: rest =>
    if c = '"' then
      (parseStringBody rest).map (fun p => (Json.str p.1, p.2))
    else if c = 'n' then
      (dropLit ['u', 'l', 'l'] rest).map (fun r => (Json.null, r))
    else if c = 't' then
      (dropLit ['r', 'u', 'e'] rest).map (fun r => (Json.bool true, r))
    else if c = 'f' then
      (dropLit ['a', 'l', 's', 'e'] rest).map (fun r => (Json.bool false, r))
    else if c = '[' then
      match rest with
      | [] => none
      | d :: ds =>
        if d = ']' then some (.arr .nil, ds)
        else (parseSeq f (d :: ds)).map (fun p => (Json.arr p.1, p.2))
    else if c = '\x7b' then
      match rest with
      | [] => none
      | d :: ds =>
        if d = '\x7d' then some (.obj .nil, ds)
        else (parseMembers f (d :: ds)).map (fun p => (Json.obj p.1, p.2))
    else if c = '-' then
      match takeDigitRun rest with
      | ([], _) => none
      | (d :: ds, r) => some (.num (-(digitsVal (d :: ds) : Int)), r)
    else if isDigit10 c then
      match takeDigitRun (c :: rest) with
      | ([], _) => none
      | (d :: ds, r) => some (.num ((digitsVal (d :: ds) : Int)), r)
    else none
/-- Parse one-or-more comma-separated values and the closing `]`. -/
def parseSeq : Nat → List Char → Option (JsonSeq × List Char)
  | 0, _ => none
  | f + 1, input =>
    match parseValue f input with
    | none => none
    | some (v, r) =>
      match r with
      | [] => none
      | c :: r2 =>
        if c = ',' then (parseSeq f r2).map (fun p => (JsonSeq.cons v p.1, p.2))
        else if c = ']' then some (JsonSeq.cons v .nil, r2)
        else none
/-- Parse one-or-more comma-separated `"key":value` members and the closing
brace. -/
def parseMembers : Nat → List Char → Option (JsonMembers × List Char)
  | 0, _ => none
  | f + 1, input =>
    match input with
    | [] => none
    | c :: rest =>
      if c = '"' then
        match parseStringBody rest with
        | none => none
        | some (k, r1) =>
          match r1 with
          | [] => none
          | c2 :: r2 =>
            if c2 = ':' then
              match parseValue f r2 with
              | none => none
              | some (v, r3) =>
                match r3 with
                | [] => none
                | c3 :: r4 =>
                  if c3 = ',' then
                    (parseMembers f r4).map (fun p => (JsonMembers.cons k v p.1, p.2))
                  else if c3 = '\x7d' then some (JsonMembers.cons k v .nil, r4)
                  else none
            else none
      else none
end

/-- Parse a complete JSON document (the whole input must be consumed). -/
def jsonParse (s : List Char) : Option Json :=
  match parseValue (s.length + 1) s with
  | some (v, []) => some v
  | _ => none

mutual
/-- A lower bound on the parser fuel a value needs. -/
def Json.size : Json → Nat
  | .null => 0
  | .bool _ => 0
  | .num _ => 0
  | .str _ => 0
  | .arr items => items.seqSize + 1
  | .obj members => members.memSize + 1
def JsonSeq.seqSize : JsonSeq → Nat
  | .nil => 0
  | .cons v tl => v.size + tl.seqSize + 1
def JsonMembers.memSize : JsonMembers → Nat
  | .nil => 0
  | .cons _ v tl => v.size + tl.memSize + 1
end

/-! ## Round-trip lemmas: string literals -/

theorem hexNat_hexChar (k : Nat) (hk : k < 16) : hexNat (hexChar k) = some k := by
  unfold hexChar hexNat
  by_cases h : k < 10
  · rw [if_pos h, toNat_ofNat_of_le _ (by omega)]
    rw [if_pos (by omega)]
    congr 1
    omega
  · rw [if_neg h, toNat_ofNat_of_le _ (by omega)]
    rw [if_neg (by omega), if_pos (by omega)]
    congr 1
    omega

theorem parseStringBody_escapeChar (c : Char) (rest : List Char) :
    parseStringBody (escapeChar c ++ rest)
      = (parseStringBody rest).map (fun p => (c :: p.1, p.2)) := by
  unfold escapeChar
  split_ifs with h1 h2 h3 h4 h5 h6 h7 h8
  · subst h1
    rw [List.cons_append, List.cons_append, List.nil_append, parseStringBody.eq_def]
    simp [unescChar]
  · subst h2
    rw [List.cons_append, List.cons_append, List.nil_append, parseStringBody.eq_def]
    simp [unescChar]
  · subst h3
    rw [List.cons_append, List.cons_append, List.nil_append, parseStringBody.eq_def]
    simp [unescChar]
  · subst h4
    rw [List.cons_append, List.cons_append, List.nil_append, parseStringBody.eq_def]
    simp [unescChar]
  · subst h5
    rw [List.cons_append, List.cons_append, List.nil_append, parseStringBody.eq_def]
    simp [unescChar]
  · subst h6
    rw [List.cons_append, List.cons_append, List.nil_append, parseStringBody.eq_def]
    simp [unescChar]
  · subst h7
    rw [List.cons_append, List.cons_append, List.nil_append, parseStringBody.eq_def]
    simp [unescChar]
  · have hlt : c.toNat < 65536 := by
      rcases h8 with h | h | h | h
      · omega
      · subst h; decide
      · subst h; decide
      · subst h; decide
    have hm : ∀ k : Nat, k % 16 < 16 := fun k => Nat.mod_lt _ (by omega)
    simp only [List.cons_append, List.nil_append]
    rw [parseStringBody.eq_def]
    simp only [hexNat_hexChar _ (hm _), if_neg (by decide : ¬('\\' : Char) = '"'),
      if_pos (rfl : ('\\' : Char) = '\\'), if_pos (rfl : ('u' : Char) = 'u')]
    have harith : ((c.toNat / 4096 % 16 * 16 + c.toNat / 256 % 16) * 16 + c.toNat / 16 % 16) * 16
        + c.toNat % 16 = c.toNat := by omega
    rw [harith, Char.ofNat_toNat]
    simp
  · simp only [List.cons_append, List.nil_append]
    rw [parseStringBody.eq_def]
    simp only [if_neg h1, if_neg h2]

theorem parseStringBody_escapeString (s : List Char) (rest : List Char) :
    parseStringBody (escapeString s ++ '"' :: rest) = some (s, rest) := by
  induction s with
  | nil =>
    show parseStringBody ('"' :: rest) = some ([], rest)
    rw [parseStringBody.eq_def]
    simp
  | cons c tl ih =>
    rw [escapeString, List.flatMap_cons, List.append_assoc, parseStringBody_escapeChar]
    have ih2 : parseStringBody (tl.flatMap escapeChar ++ '"' :: rest) = some (tl, rest) := ih
    rw [ih2]
    rfl

/-! ## Round-trip lemmas: numbers -/

theorem digitChar10_toNat (k : Nat) (hk : k < 10) : (digitChar10 k).toNat = 48 + k := by
  unfold digitChar10
  exact toNat_ofNat_of_le _ (by omega)

theorem digitChar10_isDigit (k : Nat) (hk : k < 10) : isDigit10 (digitChar10 k) = true := by
  unfold isDigit10
  rw [digitChar10_toNat k hk]
  exact decide_eq_true (by omega)

theorem natDigits_ne_nil (f n : Nat) : natDigits (f + 1) n ≠ [] := by
  unfold natDigits
  split
  · simp
  · simp

theorem natDigits_all_digit : ∀ (f n : Nat), ∀ c ∈ natDigits f n, isDigit10 c = true := by
  intro f
  induction f with
  | zero => intro n c hc; cases hc
  | succ f ih =>
    intro n c hc
    unfold natDigits at hc
    by_cases h : n < 10
    · rw [if_pos h, List.mem_singleton] at hc
      subst hc
      exact digitChar10_isDigit n h
    · rw [if_neg h, List.mem_append] at hc
      rcases hc with hc | hc
      · exact ih (n / 10) c hc
      · rw [List.mem_singleton] at hc
        subst hc
        exact digitChar10_isDigit _ (Nat.mod_lt _ (by omega))

theorem takeDigitRun_split : ∀ (ds : List Char), (∀ c ∈ ds, isDigit10 c = true) →
    ∀ (rest : List Char), digitFree rest = true → takeDigitRun (ds ++ rest) = (ds, rest) := by
  intro ds
  induction ds with
  | nil =>
    intro _ rest hrest
    cases rest with
    | nil => rfl
    | cons c t =>
      unfold digitFree at hrest
      rw [Bool.not_eq_true'] at hrest
      simp [takeDigitRun, hrest]
  | cons c tl ih =>
    intro hds rest hrest
    have hc : isDigit10 c = true := hds c (List.mem_cons_self c tl)
    have htl := ih (fun x hx => hds x (List.mem_cons_of_mem c hx)) rest hrest
    simp [takeDigitRun, hc, htl]

theorem digitsVal_append_digit (xs : List Char) (d : Char) :
    digitsVal (xs ++ [d]) = digitsVal xs * 10 + (d.toNat - 48) := by
  unfold digitsVal
  rw [List.foldl_append]
  rfl

theorem digitsVal_natDigits : ∀ (f n : Nat), n ≤ f → digitsVal (natDigits f n) = n := by
  intro f
  induction f with
  | zero =>
    intro n hn
    interval_cases n
    rfl
  | succ f ih =>
    intro n hn
    unfold natDigits
    by_cases h : n < 10
    · rw [if_pos h]
      unfold digitsVal
      simp only [List.foldl_cons, List.foldl_nil]
      rw [digitChar10_toNat n h]
      omega
    · rw [if_neg h, digitsVal_append_digit, ih (n / 10) (by omega),
        digitChar10_toNat _ (Nat.mod_lt _ (by omega))]
      omega

theorem dropLit_self : ∀ (lit rest : List Char), dropLit lit (lit ++ rest) = some rest := by
  intro lit
  induction lit with
  | nil => intro rest; rfl
  | cons l ls ih =>
    intro rest
    simp [dropLit, ih]

/-! ## Round-trip lemmas: dispatch through the value parser -/

theorem natDigits_cons (f n : Nat) :
    ∃ d ds, natDigits (f + 1) n = d :: ds ∧ isDigit10 d = true := by
  cases h : natDigits (f + 1) n with
  | nil => exact absurd h (natDigits_ne_nil f n)
  | cons d ds =>
    refine ⟨d, ds, rfl, ?_⟩
    exact natDigits_all_digit (f + 1) n d (h ▸ List.mem_cons_self d ds)

theorem digit_ne_delims {c : Char} (h : isDigit10 c = true) :
    ¬c = '"' ∧ ¬c = 'n' ∧ ¬c = 't' ∧ ¬c = 'f' ∧ ¬c = '[' ∧ ¬c = '\x7b' ∧ ¬c = '-' := by
  refine ⟨?_, ?_, ?_, ?_, ?_, ?_, ?_⟩ <;>
    (intro he; rw [he] at h; exact absurd h (by decide))

/-- Every rendered value is nonempty and starts with a character other than
`]` and `}`. -/
theorem render_head_ne_closer (v : Json) :
    ∃ c t, Json.render v = c :: t ∧ ¬c = ']' ∧ ¬c = '\x7d' := by
  cases v with
  | null => exact ⟨'n', _, rfl, by decide, by decide⟩
  | bool b =>
    cases b with
    | true => exact ⟨'t', _, rfl, by decide, by decide⟩
    | false => exact ⟨'f', _, rfl, by decide, by decide⟩
  | str s => exact ⟨'"', _, rfl, by decide, by decide⟩
  | arr items => exact ⟨'[', _, rfl, by decide, by decide⟩
  | obj members => exact ⟨'\x7b', _, rfl, by decide, by decide⟩
  | num i =>
    cases i with
    | ofNat n =>
      obtain ⟨d, ds, hdd, hdig⟩ := natDigits_cons n n
      refine ⟨d, ds, ?_, ?_, ?_⟩
      · show intChars (.ofNat n) = d :: ds
        rw [intChars]
        exact hdd
      · intro he
        rw [he] at hdig
        exact absurd hdig (by decide)
      · intro he
        rw [he] at hdig
        exact absurd hdig (by decide)
    | negSucc m => exact ⟨'-', _, rfl, by decide, by decide⟩

theorem renderItems_cons_eq (v : Json) (tl : JsonSeq) :
    ∃ w, JsonSeq.renderItems (.cons v tl) = Json.render v ++ w := by
  cases tl with
  | nil => exact ⟨[], (List.append_nil _).symm⟩
  | cons a b => exact ⟨',' :: JsonSeq.renderItems (.cons a b), rfl⟩

mutual
theorem rtValue : ∀ (v : Json) (fuel : Nat) (rest : List Char),
    Json.size v < fuel → digitFree rest = true →
    parseValue fuel (Json.render v ++ rest) = some (v, rest)
  | .null, fuel, rest, hf, _ => by
    cases fuel with
    | zero => omega
    | succ f =>
      have hd : dropLit ['u', 'l', 'l'] ('u' :: 'l' :: 'l' :: rest) = some rest :=
        dropLit_self ['u', 'l', 'l'] rest
      show parseValue (f + 1) ('n' :: 'u' :: 'l' :: 'l' :: rest) = some (.null, rest)
      rw [parseValue.eq_def]
      simp [hd]
  | .bool true, fuel, rest, hf, _ => by
    cases fuel with
    | zero => omega
    | succ f =>
      have hd : dropLit ['r', 'u', 'e'] ('r' :: 'u' :: 'e' :: rest) = some rest :=
        dropLit_self ['r', 'u', 'e'] rest
      show parseValue (f + 1) ('t' :: 'r' :: 'u' :: 'e' :: rest) = some (.bool true, rest)
      rw [parseValue.eq_def]
      simp [hd]
  | .bool false, fuel, rest, hf, _ => by
    cases fuel with
    | zero => omega
    | succ f =>
      have hd : dropLit ['a', 'l', 's', 'e'] ('a' :: 'l' :: 's' :: 'e' :: rest) = some rest :=
        dropLit_self ['a', 'l', 's', 'e'] rest
      show parseValue (f + 1) ('f' :: 'a' :: 'l' :: 's' :: 'e' :: rest) = some (.bool false, rest)
      rw [parseValue.eq_def]
      simp [hd]
  | .str s, fuel, rest, hf, _ => by
    cases fuel with
    | zero => omega
    | succ f =>
      have harg : Json.render (.str s) ++ rest = '"' :: (escapeString s ++ '"' :: rest) := by
        show ('"' :: (escapeString s ++ ['"'])) ++ rest = _
        rw [List.cons_append, List.append_assoc]
        rfl
      rw [harg, parseValue.eq_def]
      simp [parseStringBody_escapeString]
  | .num (.ofNat n), fuel, rest, hf, hr => by
    cases fuel with
    | zero => omega
    | succ f =>
      obtain ⟨d, ds, hdd, hdig⟩ := natDigits_cons n n
      obtain ⟨h1, h2, h3, h4, h5, h6, h7⟩ := digit_ne_delims hdig
      have hall : ∀ c ∈ (d :: ds), isDigit10 c = true := by
        intro c hc
        exact natDigits_all_digit (n + 1) n c (hdd ▸ hc)
      have htr : takeDigitRun (d :: (ds ++ rest)) = (d :: ds, rest) := by
        have h := takeDigitRun_split (d :: ds) hall rest hr
        rwa [List.cons_append] at h
      have hval : digitsVal (d :: ds) = n := by
        have h := digitsVal_natDigits (n + 1) n (by omega)
        rwa [hdd] at h
      have harg : Json.render (.num (.ofNat n)) ++ rest = d :: (ds ++ rest) := by
        show intChars (.ofNat n) ++ rest = _
        rw [intChars, hdd, List.cons_append]
      rw [harg, parseValue.eq_def]
      simp [h1, h2, h3, h4, h5, h6, h7, hdig, htr, hval]
  | .num (.negSucc m), fuel, rest, hf, hr => by
    cases fuel with
    | zero => omega
    | succ f =>
      obtain ⟨d, ds, hdd, hdig⟩ := natDigits_cons (m + 1) (m + 1)
      have hall : ∀ c ∈ (d :: ds), isDigit10 c = true := by
        intro c hc
        exact natDigits_all_digit (m + 2) (m + 1) c (hdd ▸ hc)
      have htr : takeDigitRun (natDigits (m + 2) (m + 1) ++ rest) = (d :: ds, rest) := by
        rw [hdd]
        exact takeDigitRun_split (d :: ds) hall rest hr
      have hval : digitsVal (d :: ds) = m + 1 := by
        have h := digitsVal_natDigits (m + 2) (m + 1) (by omega)
        rwa [hdd] at h
      have harg : Json.render (.num (.negSucc m)) ++ rest
          = '-' :: (natDigits (m + 2) (m + 1) ++ rest) := by
        show intChars (.negSucc m) ++ rest = _
        rw [intChars, List.cons_append]
      rw [harg, parseValue.eq_def]
      simp [htr, hval, Int.negSucc_eq]
  | .arr .nil, fuel, rest, hf, _ => by
    cases fuel with
    | zero => omega
    | succ f =>
      show parseValue (f + 1) ('[' :: ']' :: rest) = some (.arr .nil, rest)
      rw [parseValue.eq_def]
      simp
  | .arr (.cons v tl), fuel, rest, hf, _ => by
    cases fuel with
    | zero => omega
    | succ f =>
      obtain ⟨c0, t0, hc0, hcb, _⟩ := render_head_ne_closer v
      have hfseq : JsonSeq.seqSize (.cons v tl) < f := by
        have e : Json.size (.arr (.cons v tl)) = JsonSeq.seqSize (.cons v tl) + 1 := rfl
        omega
      have hkey := rtSeq v tl f rest hfseq
      obtain ⟨w, hw⟩ := renderItems_cons_eq v tl
      have hback : c0 :: (t0 ++ (w ++ ']' :: rest))
          = JsonSeq.renderItems (.cons v tl) ++ ']' :: rest := by
        rw [hw, hc0]
        simp
      have harg : Json.render (.arr (.cons v tl)) ++ rest
          = '[' :: (c0 :: (t0 ++ (w ++ ']' :: rest))) := by
        show ('[' :: (JsonSeq.renderItems (.cons v tl) ++ [']'])) ++ rest = _
        rw [hw, hc0]
        simp
      rw [harg, parseValue.eq_def]
      simp only [if_neg (by decide : ¬('[' : Char) = '"'),
        if_neg (by decide : ¬('[' : Char) = 'n'), if_neg (by decide : ¬('[' : Char) = 't'),
        if_neg (by decide : ¬('[' : Char) = 'f'), if_pos (rfl : ('[' : Char) = '['),
        if_neg hcb]
      rw [hback, hkey]
      simp
  | .obj .nil, fuel, rest, hf, _ => by
    cases fuel with
    | zero => omega
    | succ f =>
      show parseValue (f + 1) ('\x7b' :: '\x7d' :: rest) = some (.obj .nil, rest)
      rw [parseValue.eq_def]
      simp
  | .obj (.cons k v tl), fuel, rest, hf, _ => by
    cases fuel with
    | zero => omega
    | succ f =>
      have hfmem : JsonMembers.memSize (.cons k v tl) < f := by
        have e : Json.size (.obj (.cons k v tl)) = JsonMembers.memSize (.cons k v tl) + 1 := rfl
        omega
      have hkey := rtMembers k v tl f rest hfmem
      have hhead : ∃ u, JsonMembers.renderMembers (.cons k v tl) = '"' :: u := by
        cases tl with
        | nil => exact ⟨escapeString k ++ ['"'] ++ ':' :: Json.render v, by simp [JsonMembers.renderMembers, renderStringLit]⟩
        | cons k2 v2 tl2 =>
          exact ⟨escapeString k ++ ['"'] ++ ':' :: (Json.render v ++ ',' :: JsonMembers.renderMembers (.cons k2 v2 tl2)),
            by simp [JsonMembers.renderMembers, renderStringLit]⟩
      obtain ⟨u, hu⟩ := hhead
      have harg : Json.render (.obj (.cons k v tl)) ++ rest
          = '\x7b' :: ('"' :: (u ++ '\x7d' :: rest)) := by
        show ('\x7b' :: (JsonMembers.renderMembers (.cons k v tl) ++ ['\x7d'])) ++ rest = _
        rw [hu]
        simp
      have hback : '"' :: (u ++ '\x7d' :: rest)
          = JsonMembers.renderMembers (.cons k v tl) ++ '\x7d' :: rest := by
        rw [hu]
        simp
      rw [harg, parseValue.eq_def]
      simp only [if_neg (by decide : ¬('\x7b' : Char) = '"'),
        if_neg (by decide : ¬('\x7b' : Char) = 'n'), if_neg (by decide : ¬('\x7b' : Char) = 't'),
        if_neg (by decide : ¬('\x7b' : Char) = 'f'), if_neg (by decide : ¬('\x7b' : Char) = '['),
        if_pos (rfl : ('\x7b' : Char) = '\x7b'),
        if_neg (by decide : ¬('"' : Char) = '\x7d')]
      rw [hback, hkey]
      simp
termination_by v fuel rest hf hr => sizeOf v
theorem rtSeq : ∀ (v : Json) (tl : JsonSeq) (fuel : Nat) (rest : List Char),
    JsonSeq.seqSize (.cons v tl) < fuel →
    parseSeq fuel (JsonSeq.renderItems (.cons v tl) ++ ']' :: rest) = some (.cons v tl, rest)
  | v, .nil, fuel, rest, hf => by
    cases fuel with
    | zero => omega
    | succ f =>
      have hfv : Json.size v < f := by
        have e : JsonSeq.seqSize (.cons v .nil) = Json.size v + 1 := rfl
        omega
      have hv := rtValue v f (']' :: rest) hfv rfl
      have harg : JsonSeq.renderItems (.cons v .nil) ++ ']' :: rest
          = Json.render v ++ ']' :: rest := rfl
      rw [harg, parseSeq.eq_def]
      simp [hv]
  | v, .cons w tl2, fuel, rest, hf => by
    cases fuel with
    | zero => omega
    | succ f =>
      have e1 : JsonSeq.seqSize (.cons v (.cons w tl2))
          = Json.size v + JsonSeq.seqSize (.cons w tl2) + 1 := rfl
      have e2 : JsonSeq.seqSize (.cons w tl2) = Json.size w + JsonSeq.seqSize tl2 + 1 := rfl
      have hfv : Json.size v < f := by omega
      have hfs : JsonSeq.seqSize (.cons w tl2) < f := by omega
      have hv := rtValue v f (',' :: (JsonSeq.renderItems (.cons w tl2) ++ ']' :: rest)) hfv rfl
      have hkey := rtSeq w tl2 f rest hfs
      have harg : JsonSeq.renderItems (.cons v (.cons w tl2)) ++ ']' :: rest
          = Json.render v ++ ',' :: (JsonSeq.renderItems (.cons w tl2) ++ ']' :: rest) := by
        show (Json.render v ++ ',' :: JsonSeq.renderItems (.cons w tl2)) ++ ']' :: rest = _
        simp
      rw [harg, parseSeq.eq_def]
      simp [hv, hkey]
termination_by v tl fuel rest hf => sizeOf (JsonSeq.cons v tl)
theorem rtMembers : ∀ (k : List Char) (v : Json) (tl : JsonMembers) (fuel : Nat)
    (rest : List Char),
    JsonMembers.memSize (.cons k v tl) < fuel →
    parseMembers fuel (JsonMembers.renderMembers (.cons k v tl) ++ '\x7d' :: rest)
      = some (.cons k v tl, rest)
  | k, v, .nil, fuel, rest, hf => by
    cases fuel with
    | zero => omega
    | succ f =>
      have hfv : Json.size v < f := by
        have e : JsonMembers.memSize (.cons k v .nil) = Json.size v + 1 := rfl
        omega
      have hv := rtValue v f ('\x7d' :: rest) hfv rfl
      have harg : JsonMembers.renderMembers (.cons k v .nil) ++ '\x7d' :: rest
          = '"' :: (escapeString k ++ '"' :: (':' :: (Json.render v ++ '\x7d' :: rest))) := by
        show (renderStringLit k ++ ':' :: Json.render v) ++ '\x7d' :: rest = _
        rw [renderStringLit]
        simp
      rw [harg, parseMembers.eq_def]
      simp [parseStringBody_escapeString, hv]
  | k, v, .cons k2 v2 tl2, fuel, rest, hf => by
    cases fuel with
    | zero => omega
    | succ f =>
      have e1 : JsonMembers.memSize (.cons k v (.cons k2 v2 tl2))
          = Json.size v + JsonMembers.memSize (.cons k2 v2 tl2) + 1 := rfl
      have e2 : JsonMembers.memSize (.cons k2 v2 tl2)
          = Json.size v2 + JsonMembers.memSize tl2 + 1 := rfl
      have hfv : Json.size v < f := by omega
      have hfm : JsonMembers.memSize (.cons k2 v2 tl2) < f := by omega
      have hv := rtValue v f
        (',' :: (JsonMembers.renderMembers (.cons k2 v2 tl2) ++ '\x7d' :: rest)) hfv rfl
      have hkey := rtMembers k2 v2 tl2 f rest hfm
      have harg : JsonMembers.renderMembers (.cons k v (.cons k2 v2 tl2)) ++ '\x7d' :: rest
          = '"' :: (escapeString k ++ '"' :: (':' :: (Json.render v
              ++ ',' :: (JsonMembers.renderMembers (.cons k2 v2 tl2) ++ '\x7d' :: rest)))) := by
        show (renderStringLit k ++ ':' :: Json.render v
            ++ ',' :: JsonMembers.renderMembers (.cons k2 v2 tl2)) ++ '\x7d' :: rest = _
        rw [renderStringLit]
        simp
      rw [harg, parseMembers.eq_def]
      simp [parseStringBody_escapeString, hv, hkey]
termination_by k v tl fuel rest hf => sizeOf (JsonMembers.cons k v tl)
end

/-! ## Fuel sufficiency: the input length bounds the value size -/

mutual
theorem size_le_renderLen : ∀ (v : Json), Json.size v ≤ (Json.render v).length
  | .null => by decide
  | .bool true => by decide
  | .bool false => by decide
  | .num i => Nat.zero_le _
  | .str s => Nat.zero_le _
  | .arr items => by
    have h := seqSize_le_renderLen items
    show JsonSeq.seqSize items + 1 ≤ ('[' :: (JsonSeq.renderItems items ++ [']'])).length
    simp only [List.length_cons, List.length_append]
    omega
  | .obj members => by
    have h := memSize_le_renderLen members
    show JsonMembers.memSize members + 1
        ≤ ('\x7b' :: (JsonMembers.renderMembers members ++ ['\x7d'])).length
    simp only [List.length_cons, List.length_append]
    omega
theorem seqSize_le_renderLen : ∀ (items : JsonSeq),
    JsonSeq.seqSize items ≤ (JsonSeq.renderItems items).length + 1
  | .nil => by decide
  | .cons v .nil => by
    have hv := size_le_renderLen v
    show Json.size v + JsonSeq.seqSize .nil + 1 ≤ (Json.render v).length + 1
    have e : JsonSeq.seqSize (.nil : JsonSeq) = 0 := rfl
    omega
  | .cons v (.cons w tl2) => by
    have hv := size_le_renderLen v
    have ht := seqSize_le_renderLen (.cons w tl2)
    show Json.size v + JsonSeq.seqSize (.cons w tl2) + 1
        ≤ (Json.render v ++ ',' :: JsonSeq.renderItems (.cons w tl2)).length + 1
    simp only [List.length_append, List.length_cons]
    omega
theorem memSize_le_renderLen : ∀ (members : JsonMembers),
    JsonMembers.memSize members ≤ (JsonMembers.renderMembers members).length + 1
  | .nil => by decide
  | .cons k v .nil => by
    have hv := size_le_renderLen v
    show Json.size v + JsonMembers.memSize .nil + 1
        ≤ (renderStringLit k ++ ':' :: Json.render v).length + 1
    have e : JsonMembers.memSize (.nil : JsonMembers) = 0 := rfl
    simp only [List.length_append, List.length_cons]
    omega
  | .cons k v (.cons k2 v2 tl2) => by
    have hv := size_le_renderLen v
    have ht := memSize_le_renderLen (.cons k2 v2 tl2)
    show Json.size v + JsonMembers.memSize (.cons k2 v2 tl2) + 1
        ≤ (renderStringLit k ++ ':' :: Json.render v
            ++ ',' :: JsonMembers.renderMembers (.cons k2 v2 tl2)).length + 1
    simp only [List.length_append, List.length_cons]
    omega
end

/-- Parsing a rendered JSON document recovers the value exactly: the codec
round-trip for the whole grammar the serializer emits. -/
theorem jsonParse_render (v : Json) : jsonParse (Json.render v) = some v := by
  have hs := size_le_renderLen v
  have h := rtValue v ((Json.render v).length + 1) [] (by omega) rfl
  rw [List.append_nil] at h
  unfold jsonParse
  rw [h]

/-! ## ASCII payloads survive the `Encoding.ASCII` round trip untouched -/

/-- All characters of a list are ASCII. -/
def allAscii (l : List Char) : Bool := l.all (fun c => decide (c.toNat ≤ 127))

mutual
/-- Every string in the value (contents and keys) is ASCII-only. -/
def Json.asciiOnly : Json → Bool
  | .null => true
  | .bool _ => true
  | .num _ => true
  | .str s => allAscii s
  | .arr items => items.seqAscii
  | .obj members => members.memAscii
def JsonSeq.seqAscii : JsonSeq → Bool
  | .nil => true
  | .cons v tl => v.asciiOnly && tl.seqAscii
def JsonMembers.memAscii : JsonMembers → Bool
  | .nil => true
  | .cons k v tl => allAscii k && (v.asciiOnly && tl.memAscii)
end

theorem allAscii_mem {l : List Char} (h : allAscii l = true) {c : Char} (hc : c ∈ l) :
    c.toNat ≤ 127 := by
  unfold allAscii at h
  rw [List.all_eq_true] at h
  exact of_decide_eq_true (h c hc)

theorem hexChar_ascii (k : Nat) (hk : k < 16) : (hexChar k).toNat ≤ 127 := by
  unfold hexChar
  split
  · rw [toNat_ofNat_of_le _ (by omega)]
    omega
  · rw [toNat_ofNat_of_le _ (by omega)]
    omega

theorem escapeChar_ascii {c : Char} (h : c.toNat ≤ 127) :
    ∀ x ∈ escapeChar c, x.toNat ≤ 127 := by
  unfold escapeChar
  split_ifs with h1 h2 h3 h4 h5 h6 h7 h8
  all_goals intro x hx
  · simp only [List.mem_cons, List.not_mem_nil, or_false] at hx
    rcases hx with rfl | rfl <;> decide
  · simp only [List.mem_cons, List.not_mem_nil, or_false] at hx
    rcases hx with rfl | rfl <;> decide
  · simp only [List.mem_cons, List.not_mem_nil, or_false] at hx
    rcases hx with rfl | rfl <;> decide
  · simp only [List.mem_cons, List.not_mem_nil, or_false] at hx
    rcases hx with rfl | rfl <;> decide
  · simp only [List.mem_cons, List.not_mem_nil, or_false] at hx
    rcases hx with rfl | rfl <;> decide
  · simp only [List.mem_cons, List.not_mem_nil, or_false] at hx
    rcases hx with rfl | rfl <;> decide
  · simp only [List.mem_cons, List.not_mem_nil, or_false] at hx
    rcases hx with rfl | rfl <;> decide
  · have hm : ∀ k : Nat, k % 16 < 16 := fun k => Nat.mod_lt _ (by omega)
    simp only [List.mem_cons, List.not_mem_nil, or_false] at hx
    rcases hx with rfl | rfl | rfl | rfl | rfl | rfl
    · decide
    · decide
    · exact hexChar_ascii _ (hm _)
    · exact hexChar_ascii _ (hm _)
    · exact hexChar_ascii _ (hm _)
    · exact hexChar_ascii _ (hm _)
  · rw [List.mem_singleton] at hx
    subst hx
    exact h

theorem escapeString_ascii {s : List Char} (h : allAscii s = true) :
    ∀ x ∈ escapeString s, x.toNat ≤ 127 := by
  intro x hx
  unfold escapeString at hx
  rw [List.mem_flatMap] at hx
  obtain ⟨c, hc, hxc⟩ := hx
  exact escapeChar_ascii (allAscii_mem h hc) x hxc

theorem renderStringLit_ascii {s : List Char} (h : allAscii s = true) :
    ∀ x ∈ renderStringLit s, x.toNat ≤ 127 := by
  intro x hx
  unfold renderStringLit at hx
  rw [List.mem_cons, List.mem_append, List.mem_singleton] at hx
  rcases hx with rfl | hx | rfl
  · decide
  · exact escapeString_ascii h x hx
  · decide

theorem natDigits_ascii (f n : Nat) : ∀ c ∈ natDigits f n, c.toNat ≤ 127 := by
  intro c hc
  have h := natDigits_all_digit f n c hc
  unfold isDigit10 at h
  have := of_decide_eq_true h
  omega

theorem intChars_ascii (i : Int) : ∀ c ∈ intChars i, c.toNat ≤ 127 := by
  intro c hc
  cases i with
  | ofNat n =>
    rw [intChars] at hc
    exact natDigits_ascii _ _ c hc
  | negSucc m =>
    rw [intChars, List.mem_cons] at hc
    rcases hc with rfl | hc
    · decide
    · exact natDigits_ascii _ _ c hc

mutual
theorem render_ascii : ∀ (v : Json), Json.asciiOnly v = true →
    ∀ c ∈ Json.render v, c.toNat ≤ 127
  | .null, _, c, hc => by
    simp only [Json.render, List.mem_cons, List.not_mem_nil, or_false] at hc
    rcases hc with rfl | rfl | rfl | rfl <;> decide
  | .bool true, _, c, hc => by
    simp only [Json.render, List.mem_cons, List.not_mem_nil, or_false] at hc
    rcases hc with rfl | rfl | rfl | rfl <;> decide
  | .bool false, _, c, hc => by
    simp only [Json.render, List.mem_cons, List.not_mem_nil, or_false] at hc
    rcases hc with rfl | rfl | rfl | rfl | rfl <;> decide
  | .num i, _, c, hc => intChars_ascii i c hc
  | .str s, h, c, hc => renderStringLit_ascii h c hc
  | .arr items, h, c, hc => by
    have hin : c = '[' ∨ c ∈ JsonSeq.renderItems items ∨ c = ']' := by
      have e : Json.render (.arr items) = '[' :: (JsonSeq.renderItems items ++ [']']) := rfl
      rw [e, List.mem_cons, List.mem_append, List.mem_singleton] at hc
      tauto
    rcases hin with rfl | hin | rfl
    · decide
    · exact renderItems_ascii items h c hin
    · decide
  | .obj members, h, c, hc => by
    have hin : c = '\x7b' ∨ c ∈ JsonMembers.renderMembers members ∨ c = '\x7d' := by
      have e : Json.render (.obj members)
          = '\x7b' :: (JsonMembers.renderMembers members ++ ['\x7d']) := rfl
      rw [e, List.mem_cons, List.mem_append, List.mem_singleton] at hc
      tauto
    rcases hin with rfl | hin | rfl
    · decide
    · exact renderMembers_ascii members h c hin
    · decide
theorem renderItems_ascii : ∀ (items : JsonSeq), JsonSeq.seqAscii items = true →
    ∀ c ∈ JsonSeq.renderItems items, c.toNat ≤ 127
  | .nil, _, c, hc => by cases hc
  | .cons v .nil, h, c, hc => by
    have hv : Json.asciiOnly v = true := by
      have e : JsonSeq.seqAscii (.cons v .nil) = (Json.asciiOnly v && true) := rfl
      rw [e] at h
      simpa using h
    exact render_ascii v hv c hc
  | .cons v (.cons w tl2), h, c, hc => by
    have e : JsonSeq.seqAscii (.cons v (.cons w tl2))
        = (Json.asciiOnly v && JsonSeq.seqAscii (.cons w tl2)) := rfl
    rw [e, Bool.and_eq_true] at h
    have hmem : c ∈ Json.render v ∨ c = ',' ∨ c ∈ JsonSeq.renderItems (.cons w tl2) := by
      have e2 : JsonSeq.renderItems (.cons v (.cons w tl2))
          = Json.render v ++ ',' :: JsonSeq.renderItems (.cons w tl2) := rfl
      rw [e2, List.mem_append, List.mem_cons] at hc
      tauto
    rcases hmem with hm | rfl | hm
    · exact render_ascii v h.1 c hm
    · decide
    · exact renderItems_ascii (.cons w tl2) h.2 c hm
theorem renderMembers_ascii : ∀ (members : JsonMembers), JsonMembers.memAscii members = true →
    ∀ c ∈ JsonMembers.renderMembers members, c.toNat ≤ 127
  | .nil, _, c, hc => by cases hc
  | .cons k v .nil, h, c, hc => by
    have e : JsonMembers.memAscii (.cons k v .nil)
        = (allAscii k && (Json.asciiOnly v && true)) := rfl
    rw [e, Bool.and_eq_true, Bool.and_eq_true] at h
    have hmem : c ∈ renderStringLit k ∨ c = ':' ∨ c ∈ Json.render v := by
      have e2 : JsonMembers.renderMembers (.cons k v .nil)
          = renderStringLit k ++ ':' :: Json.render v := rfl
      rw [e2, List.mem_append, List.mem_cons] at hc
      tauto
    rcases hmem with hm | rfl | hm
    · exact renderStringLit_ascii h.1 c hm
    · decide
    · exact render_ascii v h.2.1 c hm
  | .cons k v (.cons k2 v2 tl2), h, c, hc => by
    have e : JsonMembers.memAscii (.cons k v (.cons k2 v2 tl2))
        = (allAscii k && (Json.asciiOnly v && JsonMembers.memAscii (.cons k2 v2 tl2))) := rfl
    rw [e, Bool.and_eq_true, Bool.and_eq_true] at h
    have hmem : c ∈ renderStringLit k ∨ c = ':' ∨ c ∈ Json.render v ∨ c = ','
        ∨ c ∈ JsonMembers.renderMembers (.cons k2 v2 tl2) := by
      have e2 : JsonMembers.renderMembers (.cons k v (.cons k2 v2 tl2))
          = renderStringLit k ++ ':' :: (Json.render v
              ++ ',' :: JsonMembers.renderMembers (.cons k2 v2 tl2)) := by
        rw [JsonMembers.renderMembers]
        simp
      rw [e2, List.mem_append, List.mem_cons, List.mem_append, List.mem_cons] at hc
      tauto
    rcases hmem with hm | rfl | hm | rfl | hm
    · exact renderStringLit_ascii h.1 c hm
    · decide
    · exact render_ascii v h.2.1 c hm
    · decide
    · exact renderMembers_ascii (.cons k2 v2 tl2) h.2.2 c hm
end

/-! ## Claim C5 -/

/-- C5 counterexample: the claim asserts a lossless round trip for every query
string, but the wire body is ASCII-encoded with `?`-substitution.  For the
query `"é"` the serialized body, ASCII-encoded and then parsed back by the
JSON parser, yields the query `"?"`, a different string: the round trip is
lossy for non-ASCII input. -/
theorem wire_body_roundtrip_cex :
    jsonParse (asciiDecode (contentBytesOf "é" "Ping" .nil))
      = some (graphQLJson "?" "Ping" .nil) ∧ ("é" : String) ≠ "?" := by
  refine ⟨?_, by decide⟩
  decide

/-- C5 (amended): for every query, operation name and variables mapping whose
strings are all ASCII, the JSON body placed on the wire by a dispatch call,
when parsed by a standard JSON parser, round-trips losslessly back to the same
`{query, operationName, variables}` value.  (For non-ASCII strings the ASCII
body encoding substitutes `?`, so the unrestricted claim fails.) -/
theorem wire_body_roundtrips (ops : AppSyncOperations) (ic : ImmutableCredentials)
    (sign : SignInvocation → List (String × String))
    (send : HttpRequestMessage → Option HttpResponse)
    (query operationName : String) (vars : JsonMembers) (r : HttpRequestMessage)
    (hr : r ∈ (ops.RunGraphql (some ic) sign send query operationName vars).sentRequests)
    (hq : allAscii query.data = true) (ho : allAscii operationName.data = true)
    (hv : JsonMembers.memAscii vars = true) :
    jsonParse (asciiDecode r.contentBytes)
      = some (graphQLJson query operationName vars) := by
  have hr' : r = signedHttpRequestOf ops ic sign query operationName vars := by
    simpa [AppSyncOperations.RunGraphql] using hr
  subst hr'
  have hascii : Json.asciiOnly (graphQLJson query operationName vars) = true := by
    show (allAscii "query".data
        && (allAscii query.data
          && (allAscii "operationName".data
            && (allAscii operationName.data
              && (allAscii "variables".data && (JsonMembers.memAscii vars && true)))))) = true
    rw [hq, ho, hv]
    decide
  have hdec : asciiDecode (asciiEncode (Json.render (graphQLJson query operationName vars)))
      = Json.render (graphQLJson query operationName vars) :=
    asciiDecode_encode_of_ascii _ (render_ascii _ hascii)
  show jsonParse (asciiDecode (asciiEncode (Json.render (graphQLJson query operationName vars))))
      = some (graphQLJson query operationName vars)
  rw [hdec, jsonParse_render]

/-- C5 witness: a concrete ASCII payload with one integer variable parses back
from the wire bytes to exactly the original payload. -/
theorem wire_body_roundtrips_witness :
    jsonParse (asciiDecode (signedHttpRequestOf exampleOps exampleCredentials exampleSigner
        "ping" "Ping" (.cons "id".data (.num 7) .nil)).contentBytes)
      = some (graphQLJson "ping" "Ping" (.cons "id".data (.num 7) .nil)) :=
  wire_body_roundtrips exampleOps exampleCredentials exampleSigner
    (respondWith forbiddenResponse) "ping" "Ping" (.cons "id".data (.num 7) .nil)
    (signedHttpRequestOf exampleOps exampleCredentials exampleSigner
      "ping" "Ping" (.cons "id".data (.num 7) .nil))
    (List.mem_singleton.mpr rfl) (by decide) (by decide) (by decide)
